import Mathlib

/-!
Verification of the envsetter discovery-and-reconciliation engine.

The JavaScript sources under src/ are shallowly embedded: strings are lists
of characters, `Map` objects are insertion-ordered association lists, and
each function of src/writer.js, src/scanner.js, src/ui.js that the claims
touch is translated into a computable Lean definition of the same name.
-/

namespace EnvSetter

/-- Strings are modelled as lists of characters. -/
abbrev Str := List Char

/-- Characters matched by the JavaScript regex class `\s` (ECMA-262
whitespace plus line terminators), which is also the character class used by
`String.prototype.trim`. -/
def isJsSpace (c : Char) : Bool :=
  c = ' ' || c = '\t' || c = '\n' || c = '\r' ||
  c.toNat = 0x0b || c.toNat = 0x0c || c.toNat = 0xa0 || c.toNat = 0x1680 ||
  (0x2000 ≤ c.toNat && c.toNat ≤ 0x200a) ||
  c.toNat = 0x2028 || c.toNat = 0x2029 || c.toNat = 0x202f ||
  c.toNat = 0x205f || c.toNat = 0x3000 || c.toNat = 0xfeff

/-- JavaScript `s.trim()`: drop leading and trailing whitespace. -/
def jsTrim (s : Str) : Str := (s.dropWhile isJsSpace).rdropWhile isJsSpace

/-- JavaScript `content.split("\n")`; note `"".split("\n")` is `[""]`. -/
def splitLines (s : Str) : List Str := s.splitOn '\n'

/-- JavaScript `Map.prototype.has`, on an insertion-ordered association
list with pairwise-distinct keys. -/
def mapHas (m : List (Str × Str)) (k : Str) : Bool :=
  m.any (fun kv => kv.1 == k)

/-- JavaScript `Map.prototype.get` (`none` stands for `undefined`). -/
def mapGet (m : List (Str × Str)) (k : Str) : Option Str :=
  (m.find? (fun kv => kv.1 == k)).map (fun kv => kv.2)

/-- JavaScript `Map.prototype.set`: replace in place if the key exists,
otherwise append, preserving insertion order. -/
def mapSet (m : List (Str × Str)) (k v : Str) : List (Str × Str) :=
  if mapHas m k then m.map (fun kv => if kv.1 = k then (k, v) else kv)
  else m ++ [(k, v)]

/-- A JavaScript `Map` from keys to string values. -/
abbrev EnvMap := List (Str × Str)

/-- Characters of the regex class in `needsQuotes` (src/writer.js):
`[\s#=\\$"'`!]`.  The quote characters are written via their code points
(39 is the single quote, 96 the backtick). -/
def quoteTriggerChar (c : Char) : Bool :=
  isJsSpace c || c = '#' || c = '=' || c = '\\' || c = '$' ||
  c = '"' || c = Char.ofNat 39 || c = Char.ofNat 96 || c = '!'

/-- Model of `needsQuotes` (src/writer.js).  For a string argument the JS
guard `if (!value) return false` fires exactly on the empty string. -/
def needsQuotes (value : Str) : Bool :=
  if value.isEmpty then false
  else value.any quoteTriggerChar || value.contains '\n'

/-- Per-character effect of the three sequential global replaces in
`formatValue` (backslash doubled, double quote backslash-escaped, newline
turned into backslash-n).  The passes touch disjoint character sets and
never rewrite characters they introduce, so their composition is this
character-wise map. -/
def escEnvChar (c : Char) : Str :=
  if c = '\\' then ['\\', '\\']
  else if c = '"' then ['\\', '"']
  else if c = '\n' then ['\\', 'n']
  else [c]

/-- The escaped body of a quoted value in `formatValue`. -/
def escapeValue (v : Str) : Str := v.flatMap escEnvChar

/-- Model of `formatValue` (src/writer.js).  The JS guard
`if (!value && value !== "") ...` fires only for non-string (null or
undefined) arguments, never for a string, so it has no counterpart here. -/
def formatValue (value : Str) : Str :=
  if needsQuotes value then '"' :: (escapeValue value ++ ['"']) else value

/-- Key extraction performed on one raw line by the update pass of
`writeEnvFile` (src/writer.js): trim, skip blank and comment lines, find the
first `=`, and trim the text before it.  `none` means the line is skipped. -/
def lineKey (line : Str) : Option Str :=
  let t := jsTrim line
  if t.isEmpty then none
  else if t.head? = some '#' then none
  else
    match t.findIdx? (fun c => c == '=') with
    | none => none
    | some i => some (jsTrim (t.take i))

/-- One step of the in-place update loop of `writeEnvFile`: a line whose
parsed key is in `newVars` is replaced by `key=formatValue(value)`. -/
def updateLine (newVars : EnvMap) (line : Str) : Str :=
  match lineKey line with
  | none => line
  | some key =>
    match mapGet newVars key with
    | none => line
    | some v => key ++ '=' :: formatValue v

/-- Whether some raw line of the file parses to the key `k`. -/
def keyOccurs (oldLines : List Str) (k : Str) : Bool :=
  oldLines.any (fun l => decide (lineKey l = some k))

/-- The `appendKeys` array of `writeEnvFile`: the entries of `newVars` whose
key was not updated in place, in the iteration order of `newVars`. -/
def appendKeys (newVars : EnvMap) (oldLines : List Str) : EnvMap :=
  newVars.filter (fun kv => !keyOccurs oldLines kv.1)

/-- Pure core of `writeEnvFile` (src/writer.js): the mutated `lines` array
just before it is joined and written back.  The update pass maps over the
original lines; if any keys remain to append, one blank line is pushed when
the array is non-empty and does not already end with a blank line, then one
`key=formatValue(value)` line is pushed per remaining entry in order. -/
def writeEnvLines (newVars : EnvMap) (oldLines : List Str) : List Str :=
  if (appendKeys newVars oldLines).isEmpty then oldLines.map (updateLine newVars)
  else
    (if oldLines.map (updateLine newVars) ≠ [] ∧
        (oldLines.map (updateLine newVars)).getLast? ≠ some [] then
      oldLines.map (updateLine newVars) ++ [[]]
     else oldLines.map (updateLine newVars))
      ++ (appendKeys newVars oldLines).map (fun kv => kv.1 ++ '=' :: formatValue kv.2)

/-- JavaScript `content.replace(/\n+$/, "")`. -/
def stripTrailingNewlines (s : Str) : Str := s.rdropWhile (fun c => c == '\n')

/-- Full content written by `writeEnvFile`: the lines joined with newlines,
with the trailing newline run stripped and exactly one newline appended.
`old` is `none` when the target file does not exist. -/
def writeEnvContent (newVars : EnvMap) (old : Option Str) : Str :=
  let oldLines := match old with | none => [] | some c => splitLines c
  stripTrailingNewlines (List.intercalate ['\n'] (writeEnvLines newVars oldLines)) ++ ['\n']

/-- The `updatedKeys` set of `writeEnvFile` as a duplicate-free list: keys
parsed from some original line that are present in `newVars`. -/
def updatedKeyList (newVars : EnvMap) (oldLines : List Str) : List Str :=
  ((oldLines.filterMap lineKey).filter (fun k => mapHas newVars k)).dedup

/-- Return value of `writeEnvFile`: `updatedKeys.size + appendKeys.length`. -/
def writeEnvCount (newVars : EnvMap) (oldLines : List Str) : Nat :=
  (updatedKeyList newVars oldLines).length + (appendKeys newVars oldLines).length

/-- One layer of surrounding-quote stripping in `parseExistingEnv`
(src/scanner.js): if the value starts and ends with a double quote, or
starts and ends with a single quote, `slice(1, -1)` is applied. -/
def stripQuotes (v : Str) : Str :=
  if (v.head? = some '"' ∧ v.getLast? = some '"') ∨
     (v.head? = some (Char.ofNat 39) ∧ v.getLast? = some (Char.ofNat 39)) then
    (v.drop 1).dropLast
  else v

/-- Model of the per-line loop of `parseExistingEnv` (src/scanner.js): skip
blank and comment lines, split on the first `=`, trim key and value, strip
one layer of surrounding quotes from the value, and store the pair. -/
def parseEnvContent (content : Str) : EnvMap :=
  (splitLines content).foldl
    (fun m line =>
      let t := jsTrim line
      if t.isEmpty then m
      else if t.head? = some '#' then m
      else
        match t.findIdx? (fun c => c == '=') with
        | none => m
        | some i =>
          mapSet m (jsTrim (t.take i)) (stripQuotes (jsTrim (t.drop (i + 1)))))
    []

/-- Model of `parseExistingEnv` (src/scanner.js).  `none` models a missing
file, for which an empty map is returned without an error. -/
def parseExistingEnv (file : Option Str) : EnvMap :=
  match file with
  | none => []
  | some content => parseEnvContent content

/-- Model of the `hasUsableValue` closure of `showScanResult` (src/ui.js);
`processFolder` (src/index.js) contains an identical copy.  The JS test
`typeof value === "string"` always holds here because parsed values are
strings. -/
def hasUsableValue (existingEnv : EnvMap) (key : Str) : Bool :=
  match mapGet existingEnv key with
  | none => false
  | some v => !(jsTrim v).isEmpty

/-- The three counters displayed and returned by `showScanResult`. -/
structure ScanCounts where
  total : Nat
  alreadySet : Nat
  missing : Nat
deriving DecidableEq, Repr

/-- Counting core of `showScanResult` (src/ui.js): `total` is the number of
discovered keys, `alreadySet` counts those with a usable value, and
`missing = total - alreadySet`.  `foundKeys` is the key list of the
`foundVars` map (distinct by Map semantics). -/
def showScanResult (foundKeys : List Str) (existingEnv : EnvMap) : ScanCounts :=
  let total := foundKeys.length
  let alreadySet := (foundKeys.filter (hasUsableValue existingEnv)).length
  ⟨total, alreadySet, total - alreadySet⟩

/-- ASCII uppercase letter, the regex class `[A-Z]`. -/
def isUpperAZ (c : Char) : Bool := 0x41 ≤ c.toNat && c.toNat ≤ 0x5a

/-- ASCII digit, the regex class `[0-9]`. -/
def isDigit09 (c : Char) : Bool := 0x30 ≤ c.toNat && c.toNat ≤ 0x39

/-- The regex class `[A-Z0-9_]`. -/
def isVarBodyChar (c : Char) : Bool := isUpperAZ c || isDigit09 c || c = '_'

/-- Full-match test for the regex `^[A-Z][A-Z0-9_]+$` used on keys by
`extractEnvKeysFromContent` (src/scanner.js). -/
def matchesVarName (s : Str) : Bool :=
  match s with
  | [] => false
  | c :: rest => isUpperAZ c && !rest.isEmpty && rest.all isVarBodyChar

/-- The `BLACKLIST` deny-list of src/scanner.js. -/
def BLACKLIST : List Str :=
  ([ "NODE_ENV", "HOME", "PATH", "USER", "SHELL", "PWD", "LANG", "TERM",
     "HOSTNAME", "OLDPWD", "EDITOR", "TMPDIR", "TMP", "TEMP", "CI", "NODE",
     "NPM", "NVM", "SHLVL", "LOGNAME", "LC_ALL", "LC_CTYPE", "DISPLAY",
     "COLORTERM", "COLUMNS", "LINES", "SSH_AUTH_SOCK", "SSH_CLIENT",
     "SSH_CONNECTION", "SSH_TTY", "XDG_SESSION_ID", "XDG_RUNTIME_DIR",
     "XDG_DATA_DIRS", "XDG_CONFIG_DIRS", "DBUS_SESSION_BUS_ADDRESS", "MAIL",
     "MANPATH", "PAGER", "LESS", "_" ]).map String.data

/-- Membership in the deny-list. -/
def blacklisted (k : Str) : Bool := BLACKLIST.any (fun b => b == k)

/-- Per-line acceptance test of `extractEnvKeysFromContent`
(src/scanner.js), the key extractor used by shallow scanning: the line
grammar is the shared trim/skip/first-equals grammar (`lineKey`), and the
parsed key is kept only when it is non-empty, matches `^[A-Z][A-Z0-9_]+$`,
and is not deny-listed. -/
def extractKeyOfLine (line : Str) : Option Str :=
  match lineKey line with
  | none => none
  | some key =>
    if key.isEmpty then none
    else if !matchesVarName key then none
    else if blacklisted key then none
    else some key

/-- Model of `extractEnvKeysFromContent` (src/scanner.js): fold the per-line
extraction over the lines, inserting each accepted key once (the JS `Set` is
an insertion-ordered duplicate-free list). -/
def extractEnvKeysFromContent (content : Str) : List Str :=
  (splitLines content).foldl
    (fun keys line =>
      match extractKeyOfLine line with
      | none => keys
      | some key => if keys.contains key then keys else keys ++ [key])
    []

/-- Key set of the map produced by `scanEnvFilesOnly` (src/scanner.js) on a
list of (file name, content) pairs for the env files found on disk: the
union, in discovery order, of the keys extracted from each file. -/
def scanEnvFilesOnlyKeys (files : List (Str × Str)) : List Str :=
  files.foldl
    (fun acc f =>
      (extractEnvKeysFromContent f.2).foldl
        (fun a k => if a.contains k then a else a ++ [k]) acc)
    []

/-- Per-candidate filter of the match loop of `scanCodebase`
(src/scanner.js, deep mode): a captured name is recorded unless it is empty,
deny-listed, or shorter than 3 characters.  Every capture group of
`ENV_PATTERNS` matches `[A-Z][A-Z0-9_]+` or a fixed uppercase prefix
followed by `[A-Z0-9_]*`, so captured names always satisfy
`matchesVarName`; theorems about deep scanning take that as a hypothesis. -/
def deepScanAccept (varName : Str) : Bool :=
  !varName.isEmpty && !blacklisted varName && decide (3 ≤ varName.length)

/-- Number of lines of a line array whose parsed key is `k`. -/
def countKeyLines (ls : List Str) (k : Str) : Nat :=
  ls.countP (fun l => decide (lineKey l = some k))

/-- Shape of an ordinary configuration key: non-empty, not starting the line
as a comment, containing no `=` and no newline, and without whitespace at
either edge.  Every key produced by the scanners (shape `[A-Z][A-Z0-9_]+`)
satisfies this. -/
def PlainKey (k : Str) : Prop :=
  k ≠ [] ∧ k.head? ≠ some '#' ∧
  (∀ c ∈ k, c ≠ '=' ∧ c ≠ '\n') ∧
  (∀ c ∈ k.head?, isJsSpace c = false) ∧
  (∀ c ∈ k.getLast?, isJsSpace c = false)

instance (k : Str) : Decidable (PlainKey k) := by
  unfold PlainKey; infer_instance

/-- Quoting-trigger characters exactly as the specification lists them
(whitespace, hash, equals sign, backslash, double quote, single quote,
backtick, exclamation mark, newline).  Modelled from the spec's words for
comparison with `quoteTriggerChar`; the spec's list omits the dollar sign
that the source regex contains. -/
def specQuoteChar (c : Char) : Bool :=
  isJsSpace c || c = '#' || c = '=' || c = '\\' ||
  c = '"' || c = Char.ofNat 39 || c = Char.ofNat 96 || c = '!' || c = '\n'

/-- A list with non-whitespace edge characters is its own trim. -/
theorem jsTrim_eq_self {s : Str} (h1 : ∀ c ∈ s.head?, isJsSpace c = false)
    (h2 : ∀ c ∈ s.getLast?, isJsSpace c = false) : jsTrim s = s := by
  unfold jsTrim
  have hd : s.dropWhile isJsSpace = s := by
    cases s with
    | nil => rfl
    | cons a t =>
      have ha : isJsSpace a = false := h1 a (by simp)
      simp [List.dropWhile_cons, ha]
  rw [hd, List.rdropWhile_eq_self_iff]
  intro hl
  have hmem : s.getLast hl ∈ s.getLast? := by
    rw [List.getLast?_eq_getLast _ hl]; rfl
  simp [h2 _ hmem]

/-- Characters of the trimmed list come from the original list. -/
theorem mem_of_mem_jsTrim {c : Char} {s : Str} (h : c ∈ jsTrim s) : c ∈ s := by
  unfold jsTrim at h
  have h1 : c ∈ s.dropWhile isJsSpace :=
    (List.rdropWhile_prefix isJsSpace (s.dropWhile isJsSpace)).subset h
  exact (List.dropWhile_suffix isJsSpace).subset h1

/-- The head of a non-empty trimmed list is not whitespace. -/
theorem jsTrim_head {s : Str} (h : jsTrim s ≠ []) :
    ∀ c ∈ (jsTrim s).head?, isJsSpace c = false := by
  intro c hc
  obtain ⟨t, ht⟩ := List.rdropWhile_prefix isJsSpace (s.dropWhile isJsSpace)
  have hw : s.dropWhile isJsSpace ≠ [] := by
    intro hnil
    rw [← ht] at hnil
    exact h (List.append_eq_nil.mp hnil).1
  have hhd : (s.dropWhile isJsSpace).head? = some c := by
    rw [← ht, List.head?_append]
    have : (jsTrim s).head? = some c := hc
    unfold jsTrim at this
    rw [this]
    rfl
  have hnot := List.head_dropWhile_not isJsSpace s hw
  have : (s.dropWhile isJsSpace).head? = some ((s.dropWhile isJsSpace).head hw) :=
    List.head?_eq_head hw
  rw [this] at hhd
  simp only [Option.some.injEq] at hhd
  rw [hhd] at hnot
  simpa using hnot

/-- The last character of a non-empty trimmed list is not whitespace. -/
theorem jsTrim_last {s : Str} (h : jsTrim s ≠ []) :
    ∀ c ∈ (jsTrim s).getLast?, isJsSpace c = false := by
  intro c hc
  have hnot := List.rdropWhile_last_not isJsSpace (s.dropWhile isJsSpace) h
  have heq : (jsTrim s).getLast? = some ((jsTrim s).getLast h) :=
    List.getLast?_eq_getLast _ h
  have : some c = some ((jsTrim s).getLast h) := by rw [← heq]; exact hc.symm
  simp only [Option.some.injEq] at this
  rw [this]
  simpa using hnot

/-- Trimming is idempotent. -/
theorem jsTrim_idem (s : Str) : jsTrim (jsTrim s) = jsTrim s := by
  by_cases h : jsTrim s = []
  · rw [h]; rfl
  · exact jsTrim_eq_self (jsTrim_head h) (jsTrim_last h)

/-- Structural facts about a key parsed by `lineKey`: it is its own trim, it
contains no equals sign, it does not start with the comment marker, and its
edges are not whitespace. -/
theorem lineKey_spec {l k : Str} (h : lineKey l = some k) :
    jsTrim k = k ∧ (∀ c ∈ k, c ≠ '=') ∧ k.head? ≠ some '#' ∧
    (∀ c ∈ k.head?, isJsSpace c = false) ∧
    (∀ c ∈ k.getLast?, isJsSpace c = false) := by
  by_cases h1 : (jsTrim l).isEmpty
  · simp [lineKey, h1] at h
  by_cases h2 : (jsTrim l).head? = some '#'
  · simp [lineKey, h1, h2] at h
  cases hfind : (jsTrim l).findIdx? (fun c => c == '=') with
  | none => simp [lineKey, h1, h2, hfind] at h
  | some i =>
    have hk : k = jsTrim ((jsTrim l).take i) := by
      simp [lineKey, h1, h2, hfind] at h
      exact h.symm
    refine ⟨by rw [hk]; exact jsTrim_idem _, ?_, ?_, ?_, ?_⟩
    · intro c hc hceq
      subst hceq
      rw [hk] at hc
      have hc' : '=' ∈ (jsTrim l).take i := mem_of_mem_jsTrim hc
      rw [List.mem_take_iff_getElem] at hc'
      obtain ⟨j, hj, hcj⟩ := hc'
      rw [List.findIdx?_eq_some_iff_getElem] at hfind
      obtain ⟨hi, _, hprev⟩ := hfind
      have hji : j < i := lt_of_lt_of_le hj (min_le_left _ _)
      have := hprev j hji
      simp [hcj] at this
    · by_cases hknil : k = []
      · simp [hknil]
      · have hi0 : i ≠ 0 := by
          intro h0
          rw [h0, List.take_zero] at hk
          exact hknil (by rw [hk]; rfl)
        have htne : jsTrim l ≠ [] := by
          intro hnil
          rw [hnil] at h1
          simp at h1
        obtain ⟨a, t', hT⟩ := List.exists_cons_of_ne_nil htne
        have haspace : isJsSpace a = false := by
          have := jsTrim_head htne
          rw [hT] at this
          exact this a (by simp)
        obtain ⟨i', rfl⟩ := Nat.exists_eq_succ_of_ne_zero hi0
        rw [hT, List.take_succ_cons] at hk
        have hdrop : (a :: t'.take i').dropWhile isJsSpace = a :: t'.take i' := by
          simp [List.dropWhile_cons, haspace]
        have hkr : k = (a :: t'.take i').rdropWhile isJsSpace := by
          rw [hk]
          unfold jsTrim
          rw [hdrop]
        obtain ⟨r, hr⟩ := List.rdropWhile_prefix isJsSpace (a :: t'.take i')
        obtain ⟨b, k', hbk⟩ := List.exists_cons_of_ne_nil hknil
        have hor : k.head?.or r.head? = some a := by
          rw [hkr, ← List.head?_append, hr]
          rfl
        have hba : b = a := by
          rw [hbk] at hor
          simpa using hor
        rw [hbk, hba]
        intro hcontra
        simp only [List.head?_cons, Option.some.injEq] at hcontra
        apply h2
        rw [hT, hcontra]
        rfl
    · by_cases hknil : k = []
      · simp [hknil]
      · rw [hk] at hknil ⊢
        exact jsTrim_head hknil
    · by_cases hknil : k = []
      · simp [hknil]
      · rw [hk] at hknil ⊢
        exact jsTrim_last hknil

/-- A value that needs no quoting contains no quote-trigger characters. -/
theorem needsQuotes_false_chars {v : Str} (h : needsQuotes v = false) :
    ∀ c ∈ v, quoteTriggerChar c = false := by
  intro c hc
  unfold needsQuotes at h
  by_cases hv : v.isEmpty
  · rw [List.isEmpty_iff] at hv
    subst hv
    simp at hc
  · rw [if_neg hv] at h
    have h2 : v.any quoteTriggerChar = false := by
      cases hq : v.any quoteTriggerChar
      · rfl
      · rw [hq] at h
        simp at h
    simpa using List.any_eq_false.mp h2 c hc

/-- Whitespace characters trigger quoting. -/
theorem isJsSpace_trigger {c : Char} (h : isJsSpace c = true) :
    quoteTriggerChar c = true := by
  unfold quoteTriggerChar
  simp [h]

/-- A character that does not trigger quoting is not whitespace. -/
theorem trigger_false_not_space {c : Char} (h : quoteTriggerChar c = false) :
    isJsSpace c = false := by
  cases hsp : isJsSpace c
  · rfl
  · rw [isJsSpace_trigger hsp] at h
    simp at h

/-- The first character of a formatted value is never whitespace. -/
theorem formatValue_head (v : Str) :
    ∀ c ∈ (formatValue v).head?, isJsSpace c = false := by
  intro c hc
  unfold formatValue at hc
  by_cases hq : needsQuotes v = true
  · rw [if_pos hq] at hc
    simp at hc
    subst hc
    decide
  · rw [if_neg hq] at hc
    have hq' : needsQuotes v = false := by simpa using hq
    cases v with
    | nil => simp at hc
    | cons a t =>
      simp at hc
      exact trigger_false_not_space (needsQuotes_false_chars hq' c (by simp [hc]))

/-- The last character of a formatted value is never whitespace. -/
theorem formatValue_last (v : Str) :
    ∀ c ∈ (formatValue v).getLast?, isJsSpace c = false := by
  intro c hc
  unfold formatValue at hc
  by_cases hq : needsQuotes v = true
  · rw [if_pos hq] at hc
    have : ('"' :: (escapeValue v ++ ['"'])).getLast? = some '"' := by
      rw [show ('"' :: (escapeValue v ++ ['"'])) = ('"' :: escapeValue v) ++ ['"'] by simp]
      exact List.getLast?_concat _
    rw [this] at hc
    simp at hc
    subst hc
    decide
  · rw [if_neg hq] at hc
    have hq' : needsQuotes v = false := by simpa using hq
    cases hv : v with
    | nil =>
      subst hv
      simp at hc
    | cons a t =>
      subst hv
      have hne : a :: t ≠ ([] : Str) := by simp
      rw [List.getLast?_eq_getLast _ hne] at hc
      simp only [Option.mem_def, Option.some.injEq] at hc
      subst hc
      exact trigger_false_not_space
        (needsQuotes_false_chars hq' _ (List.getLast_mem hne))

/-- The first equals sign of `k ++ '=' :: r` sits at index `k.length` when
`k` itself contains none. -/
theorem findIdx?_key_append {k : Str} (r : Str) (hk : ∀ c ∈ k, c ≠ '=') :
    (k ++ '=' :: r).findIdx? (fun c => c == '=') = some k.length := by
  induction k with
  | nil => simp [List.findIdx?_cons]
  | cons a t ih =>
    have ha : (a == '=') = false := by
      have := hk a (by simp)
      simp [this]
    simp only [List.cons_append, List.findIdx?_cons, ha, Bool.false_eq_true, if_false]
    rw [List.findIdx?_succ, ih (fun c hc => hk c (by simp [hc]))]
    rfl

/-- A line assembled as `key=formatValue(value)` from a well-shaped key
parses back to exactly that key. -/
theorem lineKey_mk {k : Str} (v : Str)
    (hkeq : ∀ c ∈ k, c ≠ '=') (hkh : k.head? ≠ some '#')
    (hh : ∀ c ∈ k.head?, isJsSpace c = false)
    (hl : ∀ c ∈ k.getLast?, isJsSpace c = false) :
    lineKey (k ++ '=' :: formatValue v) = some k := by
  have hLhead : ∀ c ∈ (k ++ '=' :: formatValue v).head?, isJsSpace c = false := by
    cases k with
    | nil =>
      intro c hc
      simp at hc
      subst hc
      decide
    | cons a t =>
      intro c hc
      simp at hc
      subst hc
      exact hh a (by simp)
  have hLlast : ∀ c ∈ (k ++ '=' :: formatValue v).getLast?, isJsSpace c = false := by
    intro c hc
    rw [List.getLast?_append] at hc
    cases hfv : formatValue v with
    | nil =>
      rw [hfv] at hc
      simp at hc
      subst hc
      decide
    | cons b fr =>
      rw [hfv] at hc
      have hbne : b :: fr ≠ ([] : Str) := by simp
      have h1 : ('=' :: b :: fr).getLast? = (b :: fr).getLast? := by
        rw [List.getLast?_eq_getLast _ (by simp), List.getLast?_eq_getLast _ hbne]
        simp [List.getLast_cons]
      rw [h1, List.getLast?_eq_getLast _ hbne] at hc
      have hcl : (b :: fr).getLast hbne = c := by simpa using hc
      subst hcl
      have := formatValue_last v
      rw [hfv, List.getLast?_eq_getLast _ hbne] at this
      exact this _ (by simp)
  have htrim : jsTrim (k ++ '=' :: formatValue v) = k ++ '=' :: formatValue v :=
    jsTrim_eq_self hLhead hLlast
  have hne : (k ++ '=' :: formatValue v).isEmpty = false := by simp
  have hh2 : (k ++ '=' :: formatValue v).head? ≠ some '#' := by
    cases k with
    | nil =>
      simp only [List.nil_append, List.head?_cons]
      intro hcontra
      exact absurd (Option.some.inj hcontra) (by decide)
    | cons a t =>
      simp only [List.cons_append, List.head?_cons]
      intro hcontra
      apply hkh
      simpa using hcontra
  simp only [lineKey, htrim, hne, Bool.false_eq_true, if_false, hh2,
    findIdx?_key_append (formatValue v) hkeq, List.take_left,
    jsTrim_eq_self hh hl, if_neg hh2]

/-- The in-place update pass never changes which key a line parses to. -/
theorem lineKey_updateLine (nv : EnvMap) (l : Str) :
    lineKey (updateLine nv l) = lineKey l := by
  unfold updateLine
  cases h : lineKey l with
  | none => simp [h]
  | some k =>
    cases hg : mapGet nv k with
    | none => simp [h, hg]
    | some w =>
      obtain ⟨_, hkeq, hkh, hh2, hl2⟩ := lineKey_spec h
      simp [h, hg, lineKey_mk w hkeq hkh hh2 hl2]

/-- The update pass preserves, line by line, which key each line parses to,
so it preserves per-key line counts. -/
theorem countKeyLines_update (nv : EnvMap) (ls : List Str) (k : Str) :
    countKeyLines (ls.map (updateLine nv)) k = countKeyLines ls k := by
  unfold countKeyLines
  rw [List.countP_map]
  apply List.countP_congr
  intro l _
  simp [Function.comp, lineKey_updateLine]

/-- The blank separator line parses to no key. -/
theorem lineKey_nil : lineKey ([] : Str) = none := rfl

/-- Per-key line counts add over concatenation. -/
theorem countKeyLines_append (a b : List Str) (k : Str) :
    countKeyLines (a ++ b) k = countKeyLines a k + countKeyLines b k := by
  unfold countKeyLines
  rw [List.countP_append]

/-- Structure of the writer's output: the updated lines, then an optional
single blank separator line, then the appended lines. -/
theorem writeEnvLines_struct (newVars : EnvMap) (oldLines : List Str) :
    ∃ sep, (sep = ([] : List Str) ∨ sep = [[]]) ∧
      writeEnvLines newVars oldLines
        = oldLines.map (updateLine newVars) ++ sep
            ++ (appendKeys newVars oldLines).map
                (fun kv => kv.1 ++ '=' :: formatValue kv.2) := by
  unfold writeEnvLines
  by_cases happ : (appendKeys newVars oldLines).isEmpty
  · refine ⟨[], Or.inl rfl, ?_⟩
    rw [if_pos happ]
    rw [List.isEmpty_iff] at happ
    simp [happ]
  · rw [if_neg happ]
    by_cases hsep : oldLines.map (updateLine newVars) ≠ [] ∧
        (oldLines.map (updateLine newVars)).getLast? ≠ some []
    · refine ⟨[[]], Or.inr rfl, ?_⟩
      rw [if_pos hsep]
    · refine ⟨[], Or.inl rfl, ?_⟩
      rw [if_neg hsep]
      simp

/-- Within the original index range, the writer's output is the in-place
update of the original line. -/
theorem writeEnvLines_getElem (newVars : EnvMap) (oldLines : List Str)
    (i : Nat) (hi : i < oldLines.length) :
    (writeEnvLines newVars oldLines)[i]? = some (updateLine newVars oldLines[i]) := by
  obtain ⟨sep, _, hw⟩ := writeEnvLines_struct newVars oldLines
  rw [hw]
  have hlen : i < (oldLines.map (updateLine newVars)).length := by simpa using hi
  rw [List.append_assoc, List.getElem?_append_left hlen, List.getElem?_map,
    List.getElem?_eq_getElem hi]
  rfl

/-- Membership in the append queue: the entry is in the map and its key
occurs in no original line. -/
theorem mem_appendKeys {newVars : EnvMap} {oldLines : List Str} {kv : Str × Str} :
    kv ∈ appendKeys newVars oldLines ↔
      kv ∈ newVars ∧ keyOccurs oldLines kv.1 = false := by
  unfold appendKeys
  rw [List.mem_filter]
  simp

/-- A key that does not occur has no line parsing to it. -/
theorem keyOccurs_false {oldLines : List Str} {k : Str}
    (h : keyOccurs oldLines k = false) : ∀ l ∈ oldLines, lineKey l ≠ some k := by
  unfold keyOccurs at h
  rw [List.any_eq_false] at h
  intro l hl
  simpa using h l hl

/-- A key that does not occur has zero matching lines. -/
theorem countKeyLines_eq_zero {oldLines : List Str} {k : Str}
    (h : keyOccurs oldLines k = false) : countKeyLines oldLines k = 0 := by
  unfold countKeyLines
  rw [List.countP_eq_zero]
  intro l hl
  simpa using keyOccurs_false h l hl

/-- An appended line built from a well-shaped key parses back to its key. -/
theorem lineKey_appLine {k : Str} (v : Str) (h : PlainKey k) :
    lineKey (k ++ '=' :: formatValue v) = some k := by
  obtain ⟨hne, hkh, hchars, hh, hl⟩ := h
  exact lineKey_mk v (fun c hc => (hchars c hc).1) hkh hh hl

/-- A duplicate-free list containing `k` has exactly one element equal to
`k`. -/
theorem countP_beq_of_nodup {l : List Str} {k : Str} (hnd : l.Nodup) (hk : k ∈ l) :
    List.countP (fun x => x == k) l = 1 := by
  induction l with
  | nil => simp at hk
  | cons a t ih =>
    rw [List.countP_cons]
    rcases List.mem_cons.mp hk with heq | hmem
    · rw [← heq] at hnd ⊢
      have ht : List.countP (fun x => x == k) t = 0 := by
        rw [List.countP_eq_zero]
        intro x hx
        simp only [beq_iff_eq]
        intro hxk
        subst hxk
        exact (List.nodup_cons.mp hnd).1 hx
      simp [ht]
    · have hak : (a == k) = false := by
        simp only [beq_eq_false_iff_ne, ne_eq]
        intro h
        subst h
        exact (List.nodup_cons.mp hnd).1 hmem
      rw [ih (List.nodup_cons.mp hnd).2 hmem, hak]
      simp

/-- Count of appended lines parsing to `k`: one when `k` is appended, zero
otherwise, assuming well-shaped pairwise-distinct keys. -/
theorem countKeyLines_appLines (newVars : EnvMap) (oldLines : List Str) (k : Str)
    (hnd : (newVars.map Prod.fst).Nodup)
    (hpk : ∀ kv ∈ newVars, PlainKey kv.1) :
    countKeyLines
        ((appendKeys newVars oldLines).map (fun kv => kv.1 ++ '=' :: formatValue kv.2)) k
      = if k ∈ (appendKeys newVars oldLines).map Prod.fst then 1 else 0 := by
  unfold countKeyLines
  rw [List.countP_map]
  have hstep : List.countP
      ((fun l => decide (lineKey l = some k)) ∘ fun kv => kv.1 ++ '=' :: formatValue kv.2)
      (appendKeys newVars oldLines)
      = List.countP (fun kv => kv.1 == k) (appendKeys newVars oldLines) := by
    apply List.countP_congr
    intro kv hkv
    have hp : PlainKey kv.1 := hpk kv (mem_appendKeys.mp hkv).1
    simp [Function.comp, lineKey_appLine kv.2 hp]
  have hmap : List.countP (fun x => x == k) ((appendKeys newVars oldLines).map Prod.fst)
      = List.countP (fun kv => kv.1 == k) (appendKeys newVars oldLines) := by
    rw [List.countP_map]
    rfl
  rw [hstep, ← hmap]
  have hndapp : ((appendKeys newVars oldLines).map Prod.fst).Nodup := by
    unfold appendKeys
    exact hnd.sublist ((List.filter_sublist _).map Prod.fst)
  by_cases hk : k ∈ (appendKeys newVars oldLines).map Prod.fst
  · rw [if_pos hk]
    exact countP_beq_of_nodup hndapp hk
  · rw [if_neg hk]
    rw [List.countP_eq_zero]
    intro x hx
    simp only [beq_iff_eq]
    intro hxk
    subst hxk
    exact hk hx

/-- A map key that occurs nowhere in the file is appended. -/
theorem mem_appendKeys_fst {newVars : EnvMap} {oldLines : List Str} {k : Str}
    (hhas : mapHas newVars k = true) (hocc : keyOccurs oldLines k = false) :
    k ∈ (appendKeys newVars oldLines).map Prod.fst := by
  unfold mapHas at hhas
  rw [List.any_eq_true] at hhas
  obtain ⟨kv, hmem, hbeq⟩ := hhas
  have hk : kv.1 = k := by simpa using hbeq
  subst hk
  exact List.mem_map.mpr ⟨kv, mem_appendKeys.mpr ⟨hmem, hocc⟩, rfl⟩

/-- The value returned by `writeEnvFile` equals the size of the supplied
map: every key is counted exactly once, whether updated or appended. -/
theorem writeEnvCount_eq (newVars : EnvMap) (oldLines : List Str)
    (hnd : (newVars.map Prod.fst).Nodup) :
    writeEnvCount newVars oldLines = newVars.length := by
  unfold writeEnvCount
  have h1 : (updatedKeyList newVars oldLines).length
      = ((newVars.map Prod.fst).filter (fun k => keyOccurs oldLines k)).length := by
    apply List.Perm.length_eq
    have hd1 : (updatedKeyList newVars oldLines).Nodup := by
      unfold updatedKeyList
      exact List.nodup_dedup _
    refine (List.perm_ext_iff_of_nodup hd1 (hnd.filter _)).mpr ?_
    intro a
    unfold updatedKeyList
    rw [List.mem_dedup, List.mem_filter, List.mem_filter, List.mem_filterMap]
    constructor
    · rintro ⟨⟨l, hl, hlk⟩, hhas⟩
      refine ⟨?_, ?_⟩
      · unfold mapHas at hhas
        rw [List.any_eq_true] at hhas
        obtain ⟨kv, hkv, hbeq⟩ := hhas
        exact List.mem_map.mpr ⟨kv, hkv, by simpa using hbeq⟩
      · unfold keyOccurs
        rw [List.any_eq_true]
        exact ⟨l, hl, by simpa using hlk⟩
    · rintro ⟨hmem, hocc⟩
      refine ⟨?_, ?_⟩
      · unfold keyOccurs at hocc
        rw [List.any_eq_true] at hocc
        obtain ⟨l, hl, hlk⟩ := hocc
        exact ⟨l, hl, by simpa using hlk⟩
      · unfold mapHas
        rw [List.any_eq_true]
        obtain ⟨kv, hkv, rfl⟩ := List.mem_map.mp hmem
        exact ⟨kv, hkv, by simp⟩
  have h2 : (appendKeys newVars oldLines).length
      = ((newVars.map Prod.fst).filter (fun k => !keyOccurs oldLines k)).length := by
    unfold appendKeys
    rw [← List.countP_eq_length_filter, ← List.countP_eq_length_filter, List.countP_map]
    rfl
  rw [h1, h2, ← List.length_map newVars Prod.fst]
  exact (List.length_eq_length_filter_add _).symm

end EnvSetter

namespace EnvSetter

/-- Claim C2: when the only supplied key `k` already occurs in the file, the
writer appends nothing, keeps the line count, and rewrites no line other
than the lines whose parsed key is `k` — every other line (values for other
keys, comments, blanks) is byte-for-byte unchanged at its original index. -/
theorem c2_frame (k v : Str) (oldLines : List Str)
    (hocc : keyOccurs oldLines k = true) :
    (writeEnvLines [(k, v)] oldLines).length = oldLines.length ∧
    ∀ i, (hi : i < oldLines.length) → lineKey oldLines[i] ≠ some k →
      (writeEnvLines [(k, v)] oldLines)[i]? = some oldLines[i] := by
  have happ : appendKeys [(k, v)] oldLines = [] := by
    unfold appendKeys
    simp [hocc]
  have hwe : writeEnvLines [(k, v)] oldLines = oldLines.map (updateLine [(k, v)]) := by
    unfold writeEnvLines
    simp [happ]
  constructor
  · rw [hwe]
    simp
  · intro i hi hk
    have hupd : updateLine [(k, v)] oldLines[i] = oldLines[i] := by
      unfold updateLine
      cases hlk : lineKey oldLines[i] with
      | none => simp
      | some k2 =>
        have hk2 : ¬(k = k2) := by
          intro he
          subst he
          exact hk hlk
        have hget : mapGet [(k, v)] k2 = none := by
          simp [mapGet, hk2]
        simp [hget]
    rw [hwe, List.getElem?_map, List.getElem?_eq_getElem hi]
    simp [hupd]

/-- Claim C3: reconciliation counts a key as already set exactly when it is
present with a value whose trim is non-empty; keys with blank values and
absent keys count as missing, and `missing = total - alreadySet` with
`total` the number of discovered keys. -/
theorem c3_reconciliation (foundKeys : List Str) (env : EnvMap) :
    (showScanResult foundKeys env).total = foundKeys.length ∧
    (showScanResult foundKeys env).alreadySet
      = (foundKeys.filter (hasUsableValue env)).length ∧
    (showScanResult foundKeys env).missing
      = (showScanResult foundKeys env).total - (showScanResult foundKeys env).alreadySet ∧
    (∀ k, hasUsableValue env k = true ↔ ∃ v, mapGet env k = some v ∧ jsTrim v ≠ []) ∧
    (∀ k v, mapGet env k = some v → jsTrim v = [] → hasUsableValue env k = false) ∧
    (∀ k, mapGet env k = none → hasUsableValue env k = false) := by
  refine ⟨rfl, rfl, rfl, ?_, ?_, ?_⟩
  · intro k
    unfold hasUsableValue
    cases h : mapGet env k with
    | none => simp
    | some v => simp
  · intro k v hget htrim
    unfold hasUsableValue
    rw [hget]
    simp [htrim]
  · intro k hget
    unfold hasUsableValue
    rw [hget]

/-- Claim C3 witness: a key with value `x` counts as set, a key whose value
is a single blank counts as missing, and a key absent from the configuration
counts as missing. -/
theorem c3_witness :
    hasUsableValue [(("A").data, ("x").data)] (("A").data) = true ∧
    hasUsableValue [(("B").data, (" ").data)] (("B").data) = false ∧
    hasUsableValue ([] : EnvMap) (("C").data) = false :=
  ⟨((c3_reconciliation [(("A").data)] [(("A").data, ("x").data)]).2.2.2.1
      (("A").data)).mpr ⟨("x").data, by decide, by decide⟩,
   (c3_reconciliation [(("B").data)] [(("B").data, (" ").data)]).2.2.2.2.1
      (("B").data) ((" ").data) (by decide) (by decide),
   (c3_reconciliation [(("C").data)] ([] : EnvMap)).2.2.2.2.2
      (("C").data) (by decide)⟩

/-- Claim C4, counterexample: writing the value `say "hi"` and re-parsing the
resulting line does not recover the original value — the parser strips the
outer quotes but leaves the backslash escapes in place. -/
theorem c4_counterexample :
    mapGet (parseEnvContent (("KEY=").data ++ formatValue ("say \"hi\"").data)) (("KEY").data)
      = some (("say \\\"hi\\\"").data) ∧
    ("say \\\"hi\\\"").data ≠ ("say \"hi\"").data := by decide

/-- Claim C4, amended: `formatValue` renders `hello world` as a double-quoted
string and `say "hi"` with the inner quotes backslash-escaped; re-parsing
recovers `hello world` exactly, but for `say "hi"` it yields the escaped form
(escape sequences are not undone on read). -/
theorem c4_quoting_behavior :
    formatValue ("hello world").data = ("\"hello world\"").data ∧
    formatValue ("say \"hi\"").data = ("\"say \\\"hi\\\"\"").data ∧
    mapGet (parseEnvContent (("KEY=").data ++ formatValue ("hello world").data)) (("KEY").data)
      = some (("hello world").data) ∧
    mapGet (parseEnvContent (("KEY=").data ++ formatValue ("say \"hi\"").data)) (("KEY").data)
      = some (("say \\\"hi\\\"").data) := by decide

/-- Claim C5, counterexample: `formatValue` applied to the empty string
returns the empty string, not the two-character quoted pair. -/
theorem c5_counterexample :
    formatValue ([] : Str) = [] ∧ formatValue ([] : Str) ≠ ['"', '"'] := by decide

/-- Claim C5, amended: `formatValue` of the empty string is the empty string,
so a key confirmed with an empty value is written as the line `KEY=` with
nothing after the equals sign. -/
theorem c5_empty_value :
    formatValue ([] : Str) = [] ∧
    writeEnvLines [(("KEY").data, [])] [] = [("KEY=").data] ∧
    writeEnvContent [(("KEY").data, [])] none = ("KEY=\n").data := by decide

/-- Claim C7, counterexample: a line containing `=` with an empty key part is
not skipped by the parser — it produces an entry whose key is the empty
string. -/
theorem c7_counterexample :
    parseExistingEnv (some ("=foo").data) = [(([] : Str), ("foo").data)] ∧
    parseExistingEnv (some ("=foo").data) ≠ [] := by decide

/-- Claim C7, amended: the parser returns an empty mapping (not an error)
when the target file does not exist, but a line containing `=` whose trimmed
key part is empty produces an entry under the empty-string key rather than
being skipped. -/
theorem c7_parser_behavior :
    parseExistingEnv none = [] ∧
    parseEnvContent ("=foo").data = [(([] : Str), ("foo").data)] ∧
    parseEnvContent ("  = bar").data = [(([] : Str), ("bar").data)] := by decide

/-- Claim C6, counterexample: appending key `B` to a non-empty file inserts
only a blank line before the appended entry — no line of the output is a
comment line, so no human-readable separator comment is written. -/
theorem c6_counterexample :
    writeEnvLines [(("B").data, ("2").data)] [("A=1").data]
      = [("A=1").data, [], ("B=2").data] ∧
    (writeEnvLines [(("B").data, ("2").data)] [("A=1").data]).countP
        (fun l => decide (l.head? = some '#')) = 0 := by decide

/-- Claim C8, counterexample: shallow-mode key extraction keeps the
two-character key `AB`, so scan results are not limited to names of length
at least 3. -/
theorem c8_counterexample :
    extractEnvKeysFromContent ("AB=1").data = [("AB").data] ∧
    ¬ 3 ≤ (("AB").data).length := by decide

/-- Claim C9, counterexample: `a$b` contains none of the characters the
claim lists, yet `formatValue` quotes it — the source regex also triggers on
the dollar sign. -/
theorem c9_counterexample :
    (("a$b").data).any specQuoteChar = false ∧
    formatValue ("a$b").data ≠ ("a$b").data ∧
    formatValue ("a$b").data = ("\"a$b\"").data := by decide

/-- Claim C1, counterexample: appending the previously-absent key `FOO`
makes it appear on one line where it appeared on none before, so a key the
writer wrote does appear on more lines than before the write. -/
theorem c1_counterexample :
    countKeyLines [("A=1").data] (("FOO").data) = 0 ∧
    countKeyLines (writeEnvLines [(("FOO").data, ("1").data)] [("A=1").data])
      (("FOO").data) = 1 := by decide

/-- Claim C1, amended: every original line whose parsed key is a supplied
key is replaced in place by `key=formatValue(value)`; the appended entries
are exactly the supplied entries whose key occurs in no original line, kept
in the iteration order of the supplied map and placed at the end after an
optional blank separator; a supplied key that occurs keeps its exact line
count, and a supplied key that does not occur ends up on exactly one line
(one more than the zero it had). -/
theorem c1_update_append_discipline (newVars : EnvMap) (oldLines : List Str)
    (hnd : (newVars.map Prod.fst).Nodup)
    (hpk : ∀ kv ∈ newVars, PlainKey kv.1) :
    (∀ i, (hi : i < oldLines.length) → ∀ k w, lineKey oldLines[i] = some k →
        mapGet newVars k = some w →
        (writeEnvLines newVars oldLines)[i]? = some (k ++ '=' :: formatValue w)) ∧
    ((appendKeys newVars oldLines).Sublist newVars) ∧
    (∀ kv : Str × Str, kv ∈ appendKeys newVars oldLines ↔
        kv ∈ newVars ∧ ∀ l ∈ oldLines, lineKey l ≠ some kv.1) ∧
    (∃ sep, (sep = ([] : List Str) ∨ sep = [[]]) ∧
        writeEnvLines newVars oldLines
          = oldLines.map (updateLine newVars) ++ sep
              ++ (appendKeys newVars oldLines).map
                  (fun kv => kv.1 ++ '=' :: formatValue kv.2)) ∧
    (∀ k, mapHas newVars k = true → keyOccurs oldLines k = true →
        countKeyLines (writeEnvLines newVars oldLines) k = countKeyLines oldLines k) ∧
    (∀ k, mapHas newVars k = true → keyOccurs oldLines k = false →
        countKeyLines (writeEnvLines newVars oldLines) k = 1) := by
  refine ⟨?_, ?_, ?_, writeEnvLines_struct newVars oldLines, ?_, ?_⟩
  · intro i hi k w hlk hget
    rw [writeEnvLines_getElem newVars oldLines i hi]
    simp [updateLine, hlk, hget]
  · unfold appendKeys
    exact List.filter_sublist _
  · intro kv
    rw [mem_appendKeys]
    constructor
    · rintro ⟨h1, h2⟩
      exact ⟨h1, keyOccurs_false h2⟩
    · rintro ⟨h1, h2⟩
      refine ⟨h1, ?_⟩
      cases hocc : keyOccurs oldLines kv.1
      · rfl
      · unfold keyOccurs at hocc
        rw [List.any_eq_true] at hocc
        obtain ⟨l, hl, hlk⟩ := hocc
        exact absurd (of_decide_eq_true hlk) (h2 l hl)
  · intro k hhas hocc
    obtain ⟨sep, hsepor, hw⟩ := writeEnvLines_struct newVars oldLines
    rw [hw, countKeyLines_append, countKeyLines_append]
    have hsep0 : countKeyLines sep k = 0 := by
      rcases hsepor with rfl | rfl
      · rfl
      · simp [countKeyLines, lineKey_nil]
    have happ0 : countKeyLines ((appendKeys newVars oldLines).map
        (fun kv => kv.1 ++ '=' :: formatValue kv.2)) k = 0 := by
      rw [countKeyLines_appLines newVars oldLines k hnd hpk, if_neg]
      intro hmem
      obtain ⟨kv, hkv, hfst⟩ := List.mem_map.mp hmem
      have hocc2 := (mem_appendKeys.mp hkv).2
      rw [hfst] at hocc2
      rw [hocc2] at hocc
      simp at hocc
    rw [countKeyLines_update, hsep0, happ0]
    omega
  · intro k hhas hocc
    obtain ⟨sep, hsepor, hw⟩ := writeEnvLines_struct newVars oldLines
    rw [hw, countKeyLines_append, countKeyLines_append]
    have hupd : countKeyLines (oldLines.map (updateLine newVars)) k = 0 := by
      rw [countKeyLines_update]
      exact countKeyLines_eq_zero hocc
    have hsep0 : countKeyLines sep k = 0 := by
      rcases hsepor with rfl | rfl
      · rfl
      · simp [countKeyLines, lineKey_nil]
    have happ1 : countKeyLines ((appendKeys newVars oldLines).map
        (fun kv => kv.1 ++ '=' :: formatValue kv.2)) k = 1 := by
      rw [countKeyLines_appLines newVars oldLines k hnd hpk,
        if_pos (mem_appendKeys_fst hhas hocc)]
    rw [hupd, hsep0, happ1]

/-- Claim C1 witness: updating the present key `B` rewrites its line in
place and keeps its line count. -/
theorem c1_witness :
    (writeEnvLines [(("B").data, ("2").data)] [("A=1").data, ("B=0").data])[1]?
      = some ((("B").data) ++ '=' :: formatValue (("2").data)) ∧
    countKeyLines (writeEnvLines [(("B").data, ("2").data)]
        [("A=1").data, ("B=0").data]) (("B").data)
      = countKeyLines [("A=1").data, ("B=0").data] (("B").data) :=
  ⟨(c1_update_append_discipline [(("B").data, ("2").data)]
      [("A=1").data, ("B=0").data] (by decide) (by decide)).1 1 (by decide)
      (("B").data) (("2").data) (by decide) (by decide),
   (c1_update_append_discipline [(("B").data, ("2").data)]
      [("A=1").data, ("B=0").data] (by decide) (by decide)).2.2.2.2.1
      (("B").data) (by decide) (by decide)⟩

/-- Claim C6, amended: when at least one key is queued for append and the
line array is non-empty with a non-blank last line, exactly one blank line
is inserted before the appended entries; no separator comment line is ever
written; nothing is inserted when no key is appended, and no blank is
inserted when the array is empty or already ends blank. -/
theorem c6_separator (newVars : EnvMap) (oldLines : List Str) :
    (appendKeys newVars oldLines = [] →
      writeEnvLines newVars oldLines = oldLines.map (updateLine newVars)) ∧
    (appendKeys newVars oldLines ≠ [] →
      oldLines.map (updateLine newVars) ≠ [] →
      (oldLines.map (updateLine newVars)).getLast? ≠ some [] →
      writeEnvLines newVars oldLines
        = oldLines.map (updateLine newVars) ++ [[]]
            ++ (appendKeys newVars oldLines).map
                (fun kv => kv.1 ++ '=' :: formatValue kv.2)) ∧
    (appendKeys newVars oldLines ≠ [] →
      (oldLines.map (updateLine newVars) = [] ∨
        (oldLines.map (updateLine newVars)).getLast? = some []) →
      writeEnvLines newVars oldLines
        = oldLines.map (updateLine newVars)
            ++ (appendKeys newVars oldLines).map
                (fun kv => kv.1 ++ '=' :: formatValue kv.2)) := by
  refine ⟨?_, ?_, ?_⟩
  · intro h
    unfold writeEnvLines
    rw [if_pos (by simp [h])]
  · intro h h1 h2
    unfold writeEnvLines
    rw [if_neg (by simp [List.isEmpty_iff, h]), if_pos ⟨h1, h2⟩]
  · intro h h12
    have hcon : ¬(oldLines.map (updateLine newVars) ≠ [] ∧
        (oldLines.map (updateLine newVars)).getLast? ≠ some []) := by
      rcases h12 with h12 | h12
      · intro hc
        exact hc.1 h12
      · intro hc
        exact hc.2 h12
    unfold writeEnvLines
    rw [if_neg (by simp [List.isEmpty_iff, h]), if_neg hcon]

/-- Claim C6 witness: appending `B` to the one-line file `A=1` inserts
exactly one blank line and then the new entry, with no comment line. -/
theorem c6_witness :
    writeEnvLines [(("B").data, ("2").data)] [("A=1").data]
      = ([("A=1").data].map (updateLine [(("B").data, ("2").data)])) ++ [[]]
          ++ (appendKeys [(("B").data, ("2").data)] [("A=1").data]).map
              (fun kv => kv.1 ++ '=' :: formatValue kv.2) :=
  (c6_separator [(("B").data, ("2").data)] [("A=1").data]).2.1
    (by decide) (by decide) (by decide)

/-- Claim C10: when a supplied key occurs on several original lines, each of
those lines is replaced in place by the same `key=formatValue(value)` line,
the number of lines carrying that key is unchanged, and the returned count
counts the key once: the total equals the size of the supplied map. -/
theorem c10_duplicate_lines (newVars : EnvMap) (oldLines : List Str) (k w : Str)
    (hnd : (newVars.map Prod.fst).Nodup)
    (hpk : ∀ kv ∈ newVars, PlainKey kv.1)
    (hget : mapGet newVars k = some w)
    (hdup : 2 ≤ countKeyLines oldLines k) :
    (∀ i, (hi : i < oldLines.length) → lineKey oldLines[i] = some k →
        (writeEnvLines newVars oldLines)[i]? = some (k ++ '=' :: formatValue w)) ∧
    countKeyLines (writeEnvLines newVars oldLines) k = countKeyLines oldLines k ∧
    writeEnvCount newVars oldLines = newVars.length := by
  have hhas : mapHas newVars k = true := by
    unfold mapGet at hget
    unfold mapHas
    cases hf : newVars.find? (fun kv => kv.1 == k) with
    | none =>
      rw [hf] at hget
      simp at hget
    | some kv =>
      rw [List.any_eq_true]
      have hp := List.find?_some hf
      exact ⟨kv, List.mem_of_find?_eq_some hf, by simpa using hp⟩
  have hocc : keyOccurs oldLines k = true := by
    cases hx : keyOccurs oldLines k
    · have := countKeyLines_eq_zero hx
      rw [this] at hdup
      omega
    · rfl
  refine ⟨?_, ?_, writeEnvCount_eq newVars oldLines hnd⟩
  · intro i hi hlk
    rw [writeEnvLines_getElem newVars oldLines i hi]
    simp [updateLine, hlk, hget]
  · obtain ⟨sep, hsepor, hw⟩ := writeEnvLines_struct newVars oldLines
    rw [hw, countKeyLines_append, countKeyLines_append]
    have hsep0 : countKeyLines sep k = 0 := by
      rcases hsepor with rfl | rfl
      · rfl
      · simp [countKeyLines, lineKey_nil]
    have happ0 : countKeyLines ((appendKeys newVars oldLines).map
        (fun kv => kv.1 ++ '=' :: formatValue kv.2)) k = 0 := by
      rw [countKeyLines_appLines newVars oldLines k hnd hpk, if_neg]
      intro hmem
      obtain ⟨kv, hkv, hfst⟩ := List.mem_map.mp hmem
      have hocc2 := (mem_appendKeys.mp hkv).2
      rw [hfst] at hocc2
      rw [hocc2] at hocc
      simp at hocc
    rw [countKeyLines_update, hsep0, happ0]
    omega

/-- Claim C10 witness: with `B` on two lines of the file, both lines carry
the new value afterwards, the per-key line count is unchanged, and the
returned count is 1. -/
theorem c10_witness :
    (writeEnvLines [(("B").data, ("2").data)]
        [("B=0").data, ("# x").data, ("B=1").data, ("A=3").data])[0]?
      = some ((("B").data) ++ '=' :: formatValue (("2").data)) ∧
    countKeyLines (writeEnvLines [(("B").data, ("2").data)]
        [("B=0").data, ("# x").data, ("B=1").data, ("A=3").data]) (("B").data)
      = countKeyLines [("B=0").data, ("# x").data, ("B=1").data, ("A=3").data]
          (("B").data) ∧
    writeEnvCount [(("B").data, ("2").data)]
        [("B=0").data, ("# x").data, ("B=1").data, ("A=3").data]
      = [(("B").data, ("2").data)].length :=
  ⟨(c10_duplicate_lines [(("B").data, ("2").data)]
      [("B=0").data, ("# x").data, ("B=1").data, ("A=3").data]
      (("B").data) (("2").data) (by decide) (by decide) (by decide) (by decide)).1
      0 (by decide) (by decide),
   (c10_duplicate_lines [(("B").data, ("2").data)]
      [("B=0").data, ("# x").data, ("B=1").data, ("A=3").data]
      (("B").data) (("2").data) (by decide) (by decide) (by decide) (by decide)).2.1,
   (c10_duplicate_lines [(("B").data, ("2").data)]
      [("B=0").data, ("# x").data, ("B=1").data, ("A=3").data]
      (("B").data) (("2").data) (by decide) (by decide) (by decide) (by decide)).2.2⟩

/-- Claim C2 witness: writing a new value only for the present key `B`
keeps the line count and leaves the `A` line untouched. -/
theorem c2_frame_witness :
    (writeEnvLines [(("B").data, ("new").data)]
        [("# top").data, ("A=1").data, ("B=old").data, ("C=3").data]).length
      = ([("# top").data, ("A=1").data, ("B=old").data, ("C=3").data]).length ∧
    (writeEnvLines [(("B").data, ("new").data)]
        [("# top").data, ("A=1").data, ("B=old").data, ("C=3").data])[1]?
      = some (("A=1").data) :=
  ⟨(c2_frame (("B").data) (("new").data)
      [("# top").data, ("A=1").data, ("B=old").data, ("C=3").data] (by decide)).1,
   (c2_frame (("B").data) (("new").data)
      [("# top").data, ("A=1").data, ("B=old").data, ("C=3").data] (by decide)).2
      1 (by decide) (by decide)⟩


/-- A key accepted by the per-line extractor matches the variable-name shape
and is not deny-listed. -/
theorem extractKeyOfLine_spec {line k : Str} (h : extractKeyOfLine line = some k) :
    matchesVarName k = true ∧ blacklisted k = false := by
  unfold extractKeyOfLine at h
  cases hlk : lineKey line with
  | none =>
    rw [hlk] at h
    simp at h
  | some key =>
    rw [hlk] at h
    have h4 : (if key.isEmpty = true then none
        else if (!matchesVarName key) = true then none
        else if blacklisted key = true then (none : Option Str)
        else some key) = some k := h
    by_cases h1 : key.isEmpty = true
    · rw [if_pos h1] at h4
      simp at h4
    · rw [if_neg h1] at h4
      by_cases h2 : (!matchesVarName key) = true
      · rw [if_pos h2] at h4
        simp at h4
      · rw [if_neg h2] at h4
        by_cases h3 : blacklisted key = true
        · rw [if_pos h3] at h4
          simp at h4
        · rw [if_neg h3] at h4
          simp only [Option.some.injEq] at h4
          subst h4
          constructor
          · simpa using h2
          · simpa using h3

/-- The accumulator invariant of the extraction fold: accepted keys match
the shape and avoid the deny-list. -/
theorem extract_foldl_inv (lines : List Str) (init : List Str)
    (hinit : ∀ k ∈ init, matchesVarName k = true ∧ blacklisted k = false) :
    ∀ k ∈ lines.foldl
        (fun keys line =>
          match extractKeyOfLine line with
          | none => keys
          | some key => if keys.contains key then keys else keys ++ [key]) init,
      matchesVarName k = true ∧ blacklisted k = false := by
  induction lines generalizing init with
  | nil =>
    intro k hk
    exact hinit k hk
  | cons l ls ih =>
    intro k hk
    rw [List.foldl_cons] at hk
    refine ih _ ?_ k hk
    intro k3 hk3
    cases he : extractKeyOfLine l with
    | none =>
      simp only [he] at hk3
      exact hinit k3 hk3
    | some key =>
      simp only [he] at hk3
      by_cases hc : init.contains key = true
      · rw [if_pos hc] at hk3
        exact hinit k3 hk3
      · rw [if_neg hc] at hk3
        rcases List.mem_append.mp hk3 with hmem | hmem
        · exact hinit k3 hmem
        · rw [List.mem_singleton] at hmem
          subst hmem
          exact extractKeyOfLine_spec he

/-- The union fold of shallow scanning preserves the same invariant. -/
theorem insert_foldl_inv (xs : List Str) (acc : List Str)
    (hacc : ∀ k ∈ acc, matchesVarName k = true ∧ blacklisted k = false)
    (hxs : ∀ k ∈ xs, matchesVarName k = true ∧ blacklisted k = false) :
    ∀ k ∈ xs.foldl (fun a k => if a.contains k then a else a ++ [k]) acc,
      matchesVarName k = true ∧ blacklisted k = false := by
  induction xs generalizing acc with
  | nil =>
    intro k hk
    exact hacc k hk
  | cons x t ih =>
    intro k hk
    rw [List.foldl_cons] at hk
    refine ih _ ?_ (fun k2 hk2 => hxs k2 (by simp [hk2])) k hk
    intro k3 hk3
    by_cases hc : acc.contains x = true
    · rw [if_pos hc] at hk3
      exact hacc k3 hk3
    · rw [if_neg hc] at hk3
      rcases List.mem_append.mp hk3 with hmem | hmem
      · exact hacc k3 hmem
      · rw [List.mem_singleton] at hmem
        subst hmem
        exact hxs k3 (by simp)

/-- The shallow per-file union preserves the invariant across files. -/
theorem scanKeys_foldl_inv (files : List (Str × Str)) (acc : List Str)
    (hacc : ∀ k ∈ acc, matchesVarName k = true ∧ blacklisted k = false) :
    ∀ k ∈ files.foldl
        (fun acc f =>
          (extractEnvKeysFromContent f.2).foldl
            (fun a k => if a.contains k then a else a ++ [k]) acc) acc,
      matchesVarName k = true ∧ blacklisted k = false := by
  induction files generalizing acc with
  | nil =>
    intro k hk
    exact hacc k hk
  | cons f fs ih =>
    intro k hk
    rw [List.foldl_cons] at hk
    refine ih _ ?_ k hk
    exact insert_foldl_inv _ _ hacc
      (extract_foldl_inv _ [] (by simp))

/-- Claim C8, amended: every key in a shallow-mode scan result matches
`^[A-Z][A-Z0-9_]+$` (hence has length at least 2, but not necessarily 3)
and is not deny-listed; in deep mode the per-candidate filter additionally
guarantees length at least 3 and deny-list rejection. -/
theorem c8_scan_filters :
    (∀ content k, k ∈ extractEnvKeysFromContent content →
        matchesVarName k = true ∧ blacklisted k = false) ∧
    (∀ files k, k ∈ scanEnvFilesOnlyKeys files →
        matchesVarName k = true ∧ blacklisted k = false) ∧
    (∀ v, deepScanAccept v = true →
        3 ≤ v.length ∧ blacklisted v = false) := by
  refine ⟨?_, ?_, ?_⟩
  · intro content k hk
    exact extract_foldl_inv _ [] (by simp) k hk
  · intro files k hk
    exact scanKeys_foldl_inv files [] (by simp) k hk
  · intro v hv
    unfold deepScanAccept at hv
    simp only [Bool.and_eq_true] at hv
    refine ⟨of_decide_eq_true hv.2, ?_⟩
    have := hv.1.2
    simpa using this

/-- Claim C8 witness: the key `FOO` extracted from `FOO=1` matches the
shape, avoids the deny-list, and passes the deep-mode filter. -/
theorem c8_witness :
    (matchesVarName ("FOO").data = true ∧ blacklisted ("FOO").data = false) ∧
    (3 ≤ (("FOO").data).length ∧ blacklisted ("FOO").data = false) :=
  ⟨c8_scan_filters.1 (("FOO=1").data) (("FOO").data) (by decide),
   c8_scan_filters.2.2 (("FOO").data) (by decide)⟩

/-- The source's quoting triggers are exactly the spec's list plus the
dollar sign. -/
theorem quoteTriggerChar_iff (c : Char) :
    quoteTriggerChar c = true ↔ (specQuoteChar c = true ∨ c = '$') := by
  by_cases hn : c = '\n'
  · subst hn
    decide
  · unfold quoteTriggerChar specQuoteChar
    simp only [Bool.or_eq_true, decide_eq_true_eq]
    tauto

/-- Claim C9, amended: a non-empty value is wrapped in double quotes (with
the escaped body) exactly when it contains whitespace, hash, equals,
backslash, a quote character, an exclamation mark, a newline, or a dollar
sign; otherwise it is written byte-for-byte as given. -/
theorem c9_quote_condition (v : Str) (hne : v ≠ []) :
    (v.any (fun c => specQuoteChar c || c == '$') = true →
      formatValue v = '"' :: (escapeValue v ++ ['"'])) ∧
    (v.any (fun c => specQuoteChar c || c == '$') = false → formatValue v = v) := by
  have hany : v.any (fun c => specQuoteChar c || c == '$') = v.any quoteTriggerChar := by
    cases h1 : v.any quoteTriggerChar
    · rw [List.any_eq_false] at h1
      rw [List.any_eq_false]
      intro c hc hcon
      simp only [Bool.or_eq_true, beq_iff_eq] at hcon
      exact h1 c hc ((quoteTriggerChar_iff c).mpr hcon)
    · rw [List.any_eq_true] at h1
      obtain ⟨c, hc, htr⟩ := h1
      rw [List.any_eq_true]
      refine ⟨c, hc, ?_⟩
      simp only [Bool.or_eq_true, beq_iff_eq]
      exact (quoteTriggerChar_iff c).mp htr
  have hnq : needsQuotes v = v.any quoteTriggerChar := by
    unfold needsQuotes
    rw [if_neg (by simpa [List.isEmpty_iff] using hne)]
    cases hcont : v.contains '\n'
    · simp
    · have hmem : '\n' ∈ v := by simpa using hcont
      have : v.any quoteTriggerChar = true := by
        rw [List.any_eq_true]
        exact ⟨'\n', hmem, isJsSpace_trigger (by decide)⟩
      rw [this]
      simp
  constructor
  · intro h
    have hq : needsQuotes v = true := by rw [hnq, ← hany, h]
    unfold formatValue
    rw [if_pos hq]
  · intro h
    have hq : needsQuotes v = false := by rw [hnq, ← hany, h]
    unfold formatValue
    rw [if_neg (by simp [hq])]

/-- Claim C9 witness: `a b` (a space) is quoted with escaped body, while
`abc` is written unquoted byte-for-byte. -/
theorem c9_witness :
    formatValue ("a b").data = '"' :: (escapeValue ("a b").data ++ ['"']) ∧
    formatValue ("abc").data = ("abc").data :=
  ⟨(c9_quote_condition (("a b").data) (by decide)).1 (by decide),
   (c9_quote_condition (("abc").data) (by decide)).2 (by decide)⟩

end EnvSetter

